import Mathlib

/-!
# Verification of the Martingale DCA trading bot (`src/bot.py`)

A shallow embedding of the bot's core: the ladder calculator (the dict
comprehension in `add_equity` / `trade_systems`), the instrument ledger,
the per-cycle reconciliation logic (`trade_systems`, `place_order`,
`get_max_entry_price`, `check_existing_orders`), input validation of
`add_equity`, and the JSON persistence pair `save_equities` / `load_equities`.

Modelling conventions:
* Python dictionaries become insertion-ordered association lists (`Dict`).
  `d[k] = v` replaces in place or appends; `del d[k]` removes; membership and
  iteration follow insertion order, as in CPython.
* Python numbers become `ℚ`.  The built-in `round(x, 2)` is modelled by
  `pyRound2`, round-to-nearest with ties to even, which is `round`'s
  documented behaviour (bit-level float artefacts at exact ties are outside
  this model).
* Level-dictionary keys are ints in a live session but strings after a JSON
  reload (`json.dump` writes int keys as strings, `json.load` returns
  strings).  `PyKey` captures this mixed key universe; Python's `==` never
  identifies `1` with `"1"`.  A dict holding both `-2` and `"-2"` serializes
  with a duplicate JSON key, which `json.load` collapses last-wins
  (`dictCollapse`).
* Broker interaction is abstracted by a `Broker` record of responses that is
  held fixed over a cycle; order submissions are collected as an output list.
  Calls are modelled on their non-raising path (exception isolation is not a
  target of any claim settled by evaluation here except through the control
  flow actually present in the source).
-/

set_option allowUnsafeReducibility true

attribute [semireducible] Rat.mul Rat.add Rat.sub Rat.inv

namespace Martingale

/-- Python dictionaries, modelled as insertion-ordered association lists. -/
abbrev Dict (α β : Type) := List (α × β)

/-- The key list of a dict, in insertion order. -/
def keys {α β : Type} (d : Dict α β) : List α := d.map Prod.fst

/-- `d[k] = v`: overwrite the entry if `k` is already a key, else append. -/
def dictInsert {α β : Type} [DecidableEq α] (d : Dict α β) (k : α) (v : β) : Dict α β :=
  if k ∈ keys d then d.map (fun kv => if kv.1 = k then (k, v) else kv) else d ++ [(k, v)]

/-- `del d[k]`: remove the entry for `k`, preserving the order of the rest. -/
def dictErase {α β : Type} [DecidableEq α] (d : Dict α β) (k : α) : Dict α β :=
  d.filter (fun kv => decide (kv.1 ≠ k))

/-- `d.get(k)` / `d[k]` lookup. -/
def dictGet? {α β : Type} [DecidableEq α] (d : Dict α β) (k : α) : Option β :=
  (d.find? (fun kv => decide (kv.1 = k))).map Prod.snd

/-- Rebuilding a parsed JSON object as a Python dict, as `json.load` does:
the key/value pairs are inserted in textual order into a fresh dict, so a
duplicated key keeps its first position and its last value (last wins). -/
def dictCollapse {α β : Type} [DecidableEq α] (d : Dict α β) : Dict α β :=
  d.foldl (fun acc kv => dictInsert acc kv.1 kv.2) []

/-- A Python dict key as it occurs in a `levels` dictionary: an `int` in a
live session, a `str` after a JSON round trip.  Python equality never
identifies an int with a string. -/
inductive PyKey where
  | pint (m : ℤ)
  | pstr (s : String)
deriving DecidableEq, Repr

/-- One ledger row (`self.equities[symbol]`): the value dict built in
`add_equity` lines 260-266 of `src/bot.py`. -/
structure Equity where
  position : ℤ
  entry_price : ℚ
  levels : Dict PyKey ℚ
  drawdown : ℚ
  status : String
deriving DecidableEq, Repr

/-- The in-memory ledger `self.equities`. -/
abbrev Ledger := Dict String Equity

/-- One order returned by `api.list_orders(status="filled", limit=50)`:
only the fields `get_max_entry_price` reads. -/
structure FilledOrder where
  symbol : String
  filled_avg_price : Option ℚ
deriving DecidableEq, Repr

/-- The broker gateway, abstracted as the responses the bot would receive
during one pass: whether `api.get_position` succeeds, the list returned by
`api.list_orders(status="filled", limit=50)`, and the per-symbol open-order
limit prices returned by `api.list_orders(status="open", symbols=symbol)`.
Held fixed across a pass (and across two passes when a claim stipulates an
unchanged broker). -/
structure Broker where
  hasPosition : String → Bool
  filledOrders : List FilledOrder
  openOrders : String → List ℚ

/-- A broker-side order submission performed by the bot (`api.submit_order`). -/
inductive Submission where
  | market (symbol : String)
  | limit (symbol : String) (price : ℚ)
deriving DecidableEq, Repr

/-- Whether a submission is a limit (ladder-rung) order. -/
def Submission.isLimit : Submission → Bool
  | market _ => false
  | limit _ _ => true

/-- Round-to-nearest integer with ties to even, the documented behaviour of
Python's built-in `round`. -/
def roundHalfEven (y : ℚ) : ℤ :=
  let n := Rat.floor y
  if y - n < 1/2 then n
  else if 1/2 < y - n then n + 1
  else if n % 2 = 0 then n else n + 1

/-- Python's `round(x, 2)`. -/
def pyRound2 (x : ℚ) : ℚ := (roundHalfEven (x * 100) : ℚ) / 100

/-- The ladder calculator: the dict comprehension
`{i+1: round(entry_price * (1 - drawdown * (i+1)), 2) for i in range(levels)}`
appearing verbatim at `src/bot.py:255-258` (`add_equity`) and
`src/bot.py:415-418` (`trade_systems`).  The spec names it `computeLevels`. -/
def computeLevels (entry_price drawdown : ℚ) (count : ℕ) : List (ℤ × ℚ) :=
  (List.range count).map
    (fun (i : ℕ) => ((i : ℤ) + 1, pyRound2 (entry_price * (1 - drawdown * ((i : ℚ) + 1)))))

/-- `fetch_mock_api` (`src/bot.py:127-137`): always `{"price": 100}`. -/
def fetch_mock_api (_symbol : String) : ℚ := 100

/-- `get_max_entry_price` (`src/bot.py:363-383`) on its non-raising path:
list recent filled orders, keep those with a truthy `filled_avg_price` and a
matching symbol, return the maximum price, or `-1` when none qualify. -/
def get_max_entry_price (b : Broker) (symbol : String) : ℚ :=
  let prices := b.filledOrders.filterMap
    (fun o => if o.symbol = symbol then o.filled_avg_price else none)
  match prices with
  | [] => -1
  | p :: ps => ps.foldl max p

/-- `check_existing_orders` (`src/bot.py:343-361`) on its non-raising path:
true iff some open order for `symbol` has exactly this limit price. -/
def check_existing_orders (b : Broker) (symbol : String) (price : ℚ) : Bool :=
  (b.openOrders symbol).any (fun lp => decide (lp = price))

/-- `place_order` (`src/bot.py:441-468`), acting on the symbol's `levels`
dict: skip when `-level` is a key or the string `"-1"` is a key; otherwise
submit a limit order, write `levels[-level] = price` and `del levels[level]`.
Returns the new `levels` and the submission, if any. -/
def place_order (symbol : String) (price : ℚ) (level : ℤ) (lv : Dict PyKey ℚ) :
    Dict PyKey ℚ × Option Submission :=
  if PyKey.pint (-level) ∈ keys lv ∨ PyKey.pstr "-1" ∈ keys lv then (lv, none)
  else (dictErase (dictInsert lv (PyKey.pint (-level)) price) (PyKey.pint level),
        some (Submission.limit symbol price))

/-- The levels-update loop of `trade_systems` (`src/bot.py:420-424`):
for each freshly computed `(level, price)`, insert it only when neither
`level` nor `-level` is already a key. -/
def updateLevels (lv : Dict PyKey ℚ) : List (ℤ × ℚ) → Dict PyKey ℚ
  | [] => lv
  | (l, p) :: rest =>
    if PyKey.pint l ∉ keys lv ∧ PyKey.pint (-l) ∉ keys lv then
      updateLevels (dictInsert lv (PyKey.pint l) p) rest
    else updateLevels lv rest

/-- The order-placement loop of `trade_systems` (`src/bot.py:431-434`):
for each computed `(level, price)`, call `place_order` when `level` is still a
key of the (continually re-read) `levels` dict. -/
def placeLoop (symbol : String) : List (ℤ × ℚ) → Dict PyKey ℚ →
    Dict PyKey ℚ × List Submission
  | [], lv => (lv, [])
  | (l, p) :: rest, lv =>
    if PyKey.pint l ∈ keys lv then
      ((placeLoop symbol rest (place_order symbol p l lv).1).1,
       (place_order symbol p l lv).2.toList ++
         (placeLoop symbol rest (place_order symbol p l lv).1).2)
    else placeLoop symbol rest lv

/-- The body of `trade_systems` for one `status == 'On'` symbol
(`src/bot.py:392-437`): position check (a failing `api.get_position` triggers
one market order, a settlement wait, then the same entry-price lookup),
ladder recomputation, the levels-update loop, the field updates
`entry_price`/`levels`/`position`, and the placement loop. -/
def trade_symbol (b : Broker) (symbol : String) (eq : Equity) :
    Equity × List Submission :=
  let entry_price := get_max_entry_price b symbol
  let marketSubs : List Submission :=
    if b.hasPosition symbol then [] else [Submission.market symbol]
  let lps := computeLevels entry_price eq.drawdown eq.levels.length
  let lv1 := updateLevels eq.levels lps
  let r := placeLoop symbol lps lv1
  ({ eq with entry_price := entry_price, levels := r.1, position := 1 },
   marketSubs ++ r.2)

/-- `trade_systems` (`src/bot.py:385-439`): iterate the ledger in insertion
order; process an `'On'` entry with `trade_symbol`; on the first entry whose
status is not `'On'` the function RETURNS (the `else: return` at line 439),
leaving that entry and every later entry untouched.  Returns the final ledger
and all submissions, in order. -/
def trade_systems (b : Broker) : Ledger → Ledger × List Submission
  | [] => ([], [])
  | (s, eq) :: rest =>
    if eq.status = "On" then
      let r := trade_symbol b s eq
      let r2 := trade_systems b rest
      ((s, r.1) :: r2.1, r.2 ++ r2.2)
    else ((s, eq) :: rest, [])

/-- Python `s.upper()` restricted to ASCII (`Char.toUpper` uppercases exactly
the ASCII letters). -/
def pyUpper (s : String) : String := String.mk (s.data.map Char.toUpper)

/-- Python `str.isdigit` restricted to ASCII: nonempty and all digits. -/
def pyIsDigit (cs : List Char) : Bool := !cs.isEmpty && cs.all Char.isDigit

/-- Python `s.replace('.', '', 1)`: drop the first `'.'` only. -/
def removeFirstDot : List Char → List Char
  | [] => []
  | c :: cs => if c = '.' then cs else c :: removeFirstDot cs

/-- Value of a digit string (`int(s)` on a validated input). -/
def digitsToNat (cs : List Char) : ℕ :=
  cs.foldl (fun a c => a * 10 + (c.toNat - 48)) 0

/-- `float(s)` on a string that passed `s.replace('.', '', 1).isdigit()`:
digits with at most one decimal point. -/
def parseDec (cs : List Char) : ℚ :=
  let ip := cs.takeWhile (fun c => decide (c ≠ '.'))
  let fp := (cs.dropWhile (fun c => decide (c ≠ '.'))).drop 1
  (digitsToNat ip : ℚ) + (digitsToNat fp : ℚ) / (10 : ℚ) ^ fp.length

/-- Result of `add_equity`: either the "Invalid input." rejection (no ledger
mutation) or the updated ledger. -/
inductive AddResult where
  | invalid
  | ok (equities : Dict String Equity)
deriving DecidableEq, Repr

/-- The input-validation predicate of `add_equity` (`src/bot.py:246`):
`not symbol or not levels.isdigit() or not drawdown.replace('.','',1).isdigit()`
rejects; this is its complement. -/
def validInputs (symbolIn levelsIn drawdownIn : String) : Prop :=
  ¬ (pyUpper symbolIn).isEmpty = true ∧
  pyIsDigit levelsIn.toList = true ∧
  pyIsDigit (removeFirstDot drawdownIn.toList) = true

instance (s l d : String) : Decidable (validInputs s l d) := by
  unfold validInputs; infer_instance

/-- The fresh ledger row `add_equity` builds (`src/bot.py:260-266`): position
0, the fixed mock quote 100 as entry price, an all-`Pending` (positive-key)
ladder, status `"Off"`. -/
def freshEquity (levelsIn drawdownIn : String) : Equity :=
  let levels := digitsToNat levelsIn.toList
  let drawdown := parseDec drawdownIn.toList / 100
  let entry_price := fetch_mock_api ""
  { position := 0
    entry_price := entry_price
    levels := (computeLevels entry_price drawdown levels).map
      (fun lp => (PyKey.pint lp.1, lp.2))
    drawdown := drawdown
    status := "Off" }

/-- `add_equity` (`src/bot.py:236-274`): uppercase the symbol, validate the
three inputs by string shape only, and on success store a fresh row under the
symbol (silently overwriting any existing row). -/
def add_equity (symbolIn levelsIn drawdownIn : String) (equities : Dict String Equity) :
    AddResult :=
  let symbol := pyUpper symbolIn
  if symbol.isEmpty || !pyIsDigit levelsIn.toList ||
      !pyIsDigit (removeFirstDot drawdownIn.toList) then AddResult.invalid
  else AddResult.ok (dictInsert equities symbol (freshEquity levelsIn drawdownIn))

/-- The persisted (JSON) form of a ledger row: `json.dump` writes every
levels key as a string (`str(int)` for int keys), and numeric values
round-trip exactly. -/
structure PEquity where
  position : ℤ
  entry_price : ℚ
  levels : Dict String ℚ
  drawdown : ℚ
  status : String
deriving DecidableEq, Repr

/-- How `json.dump` renders a levels key: ints via `str`, strings as-is. -/
def keyToString : PyKey → String
  | PyKey.pint m => toString m
  | PyKey.pstr s => s

/-- Serialization of one row (`save_equities`, `src/bot.py:497-502`). -/
def saveEquity (eq : Equity) : PEquity :=
  { position := eq.position
    entry_price := eq.entry_price
    levels := eq.levels.map (fun kv => (keyToString kv.1, kv.2))
    drawdown := eq.drawdown
    status := eq.status }

/-- Deserialization of one row (`load_equities`, `src/bot.py:504-515`):
`json.load` returns all dict keys as strings, and a key duplicated in the
JSON text (e.g. when the dict held both the int key `-2` and the string key
`"-2"`, which `json.dump` writes identically) is collapsed last-wins. -/
def loadEquity (p : PEquity) : Equity :=
  { position := p.position
    entry_price := p.entry_price
    levels := (dictCollapse p.levels).map (fun kv => (PyKey.pstr kv.1, kv.2))
    drawdown := p.drawdown
    status := p.status }

/-- `save_equities`: the full persisted snapshot, written in dict order with
every key stringified (duplicate stringified keys are written as duplicate
JSON object keys). -/
def save_equities (led : Ledger) : Dict String PEquity :=
  led.map (fun kv => (kv.1, saveEquity kv.2))

/-- `load_equities`: read the snapshot back; all keys come back as strings
and duplicated JSON keys collapse last-wins, at the symbol level too. -/
def load_equities (f : Dict String PEquity) : Ledger :=
  (dictCollapse f).map (fun kv => (kv.1, loadEquity kv.2))

/-- Whether a levels key is a well-formed in-session rung key for a ladder of
`n` rungs: an integer `m` with `1 ≤ |m| ≤ n`. -/
def goodKey (n : ℕ) : PyKey → Bool
  | PyKey.pint m => decide (1 ≤ m.natAbs ∧ m.natAbs ≤ n)
  | PyKey.pstr _ => false

/-- The reachable in-session shape of a `levels` dict of length `n`: no
duplicate keys, every key an integer `±i` with `i ∈ 1..n`, and for each such
`i` exactly one of `+i` (Pending) and `-i` (Submitted) present. -/
def GoodLevels (lv : Dict PyKey ℚ) : Prop :=
  (keys lv).Nodup ∧
  (∀ k ∈ keys lv, goodKey lv.length k = true) ∧
  (∀ j : ℕ, j < lv.length →
    ((PyKey.pint ((j : ℤ) + 1) ∈ keys lv) ↔ ¬ (PyKey.pint (-((j : ℤ) + 1)) ∈ keys lv)))

instance (lv : Dict PyKey ℚ) : Decidable (GoodLevels lv) := by
  unfold GoodLevels; infer_instance

/-- Structural invariant of an in-session `levels` dict that the placement
loop preserves: no duplicate keys, every key a nonzero integer, and never
both `+i` and `-i` present. -/
def LevelsInv (lv : Dict PyKey ℚ) : Prop :=
  (keys lv).Nodup ∧
  (∀ k ∈ keys lv, ∃ m : ℤ, k = PyKey.pint m ∧ m ≠ 0) ∧
  (∀ i : ℤ, ¬ (PyKey.pint i ∈ keys lv ∧ PyKey.pint (-i) ∈ keys lv))

/-- A broker holding a position in every symbol, with one filled order for
`sym` at price 100 and no open orders. -/
def brokerPos (sym : String) : Broker :=
  { hasPosition := fun _ => true
    filledOrders := [{ symbol := sym, filled_avg_price := some 100 }]
    openOrders := fun _ => [] }

/-- A broker with no position, no filled orders and no open orders: the
entry-price lookup yields the `-1` sentinel for every symbol. -/
def brokerNoFills : Broker :=
  { hasPosition := fun _ => false, filledOrders := [], openOrders := fun _ => [] }

/-- A broker holding a position in every symbol, a filled order for `"A"` at
100, and an existing open order at limit price 95 for every symbol. -/
def brokerOpen95 : Broker :=
  { hasPosition := fun _ => true
    filledOrders := [{ symbol := "A", filled_avg_price := some 100 }]
    openOrders := fun _ => [95] }

/-- An inactive one-rung instrument. -/
def eqOff : Equity := ⟨0, 100, [(PyKey.pint 1, 95)], 1/20, "Off"⟩

/-- An active one-rung instrument with its rung Pending. -/
def eqOn : Equity := ⟨0, 100, [(PyKey.pint 1, 95)], 1/20, "On"⟩

/-- An active two-rung instrument, both rungs Pending. -/
def eqTwoPending : Equity := ⟨0, 100, [(PyKey.pint 1, 95), (PyKey.pint 2, 90)], 1/20, "On"⟩

/-- A post-restart state: rung 3 recorded as Submitted under the string key
`"-3"` (as `load_equities` returns it) next to an in-session Submitted rung
`-1`. -/
def eqMixedKeys : Equity := ⟨1, 100, [(PyKey.pstr "-3", 85), (PyKey.pint (-1), 95)], 1/20, "On"⟩

/-- A persisted snapshot saved mid-ladder: rung 1 Pending (key `"1"`), rung 2
Submitted (key `"-2"`), status `On`. -/
def savedMidLadder : Dict String PEquity :=
  [("AAPL", ⟨0, 100, [("1", 95), ("-2", 90)], 1/20, "On"⟩)]

/-- A ledger whose levels dict has an integer key, as every in-session ledger
does. -/
def ledIntKey : Ledger := [("A", ⟨0, 100, [(PyKey.pint 1, 95)], 1/20, "Off"⟩)]

/-- A ledger whose levels dict holds both the loaded string key `"-2"` and
the in-session int key `-2` — the shape every instrument reaches one cycle
after a restart (the cycle adds int rungs next to the loaded string rungs and
flips them negative).  `json.dump` writes both keys as `"-2"`, so the
serialized object carries a duplicate key. -/
def ledDupKey : Ledger :=
  [("A", ⟨1, 100, [(PyKey.pstr "-2", 95), (PyKey.pint (-2), 90)], 1/20, "On"⟩)]

/-- A ledger already tracking `"AAPL"` with an open position, an active
status and a Submitted rung `-1`. -/
def eqsWithAAPL : Dict String Equity :=
  [("AAPL", ⟨3, 120, [(PyKey.pint (-1), 95), (PyKey.pint 2, 90)], 1/20, "On"⟩)]

theorem keys_dictInsert_of_not_mem {α β : Type} [DecidableEq α] {d : Dict α β} {k : α}
    (v : β) (h : k ∉ keys d) : keys (dictInsert d k v) = keys d ++ [k] := by
  unfold dictInsert
  rw [if_neg h]
  simp [keys]

theorem keys_dictInsert_of_mem {α β : Type} [DecidableEq α] {d : Dict α β} {k : α}
    (v : β) (h : k ∈ keys d) : keys (dictInsert d k v) = keys d := by
  unfold dictInsert
  rw [if_pos h]
  unfold keys
  rw [List.map_map]
  apply List.map_congr_left
  intro kv _
  by_cases hk : kv.1 = k
  · simp [hk]
  · simp [hk]

theorem length_dictInsert_of_mem {α β : Type} [DecidableEq α] {d : Dict α β} {k : α}
    (v : β) (h : k ∈ keys d) : (dictInsert d k v).length = d.length := by
  unfold dictInsert
  rw [if_pos h, List.length_map]

theorem length_dictInsert_of_not_mem {α β : Type} [DecidableEq α] {d : Dict α β} {k : α}
    (v : β) (h : k ∉ keys d) : (dictInsert d k v).length = d.length + 1 := by
  unfold dictInsert
  rw [if_neg h, List.length_append, List.length_singleton]

theorem mem_keys_dictInsert {α β : Type} [DecidableEq α] (d : Dict α β) (k : α) (v : β)
    (x : α) : x ∈ keys (dictInsert d k v) ↔ x = k ∨ x ∈ keys d := by
  by_cases h : k ∈ keys d
  · rw [keys_dictInsert_of_mem v h]
    constructor
    · exact Or.inr
    · rintro (rfl | hx)
      · exact h
      · exact hx
  · rw [keys_dictInsert_of_not_mem v h]
    rw [List.mem_append, List.mem_singleton]
    tauto

theorem mem_keys_dictErase {α β : Type} [DecidableEq α] (d : Dict α β) (k x : α) :
    x ∈ keys (dictErase d k) ↔ x ≠ k ∧ x ∈ keys d := by
  unfold dictErase keys
  simp only [List.mem_map, List.mem_filter, decide_eq_true_eq]
  constructor
  · rintro ⟨kv, ⟨hkv, hne⟩, rfl⟩
    exact ⟨hne, kv, hkv, rfl⟩
  · rintro ⟨hne, kv, hkv, rfl⟩
    exact ⟨kv, ⟨hkv, hne⟩, rfl⟩

theorem nodup_keys_dictErase {α β : Type} [DecidableEq α] {d : Dict α β} (k : α)
    (h : (keys d).Nodup) : (keys (dictErase d k)).Nodup :=
  List.Nodup.sublist ((List.filter_sublist d).map Prod.fst) h

theorem nodup_keys_dictInsert {α β : Type} [DecidableEq α] {d : Dict α β} (k : α) (v : β)
    (h : (keys d).Nodup) : (keys (dictInsert d k v)).Nodup := by
  by_cases hm : k ∈ keys d
  · rw [keys_dictInsert_of_mem v hm]; exact h
  · rw [keys_dictInsert_of_not_mem v hm]
    exact List.Nodup.append h (List.nodup_singleton k) (by simpa using hm)

theorem dictErase_eq_self {α β : Type} [DecidableEq α] {d : Dict α β} {k : α}
    (h : k ∉ keys d) : dictErase d k = d := by
  unfold dictErase
  apply List.filter_eq_self.2
  intro kv hkv
  simp only [decide_eq_true_eq]
  intro hk
  exact h (hk ▸ List.mem_map_of_mem Prod.fst hkv)

theorem dictErase_cons_of_eq {α β : Type} [DecidableEq α] {kv : α × β} {rest : Dict α β}
    {k : α} (hk : kv.1 = k) : dictErase (kv :: rest) k = dictErase rest k := by
  unfold dictErase
  rw [List.filter_cons]
  simp [hk]

theorem dictErase_cons_of_ne {α β : Type} [DecidableEq α] {kv : α × β} {rest : Dict α β}
    {k : α} (hk : kv.1 ≠ k) : dictErase (kv :: rest) k = kv :: dictErase rest k := by
  unfold dictErase
  rw [List.filter_cons]
  simp [hk]

theorem mem_keys_cons {α β : Type} {kv : α × β} {rest : Dict α β} {k : α} :
    k ∈ keys (kv :: rest) ↔ kv.1 = k ∨ k ∈ keys rest := by
  unfold keys
  rw [List.map_cons, List.mem_cons]
  constructor
  · rintro (rfl | h)
    · exact Or.inl rfl
    · exact Or.inr h
  · rintro (h | h)
    · exact Or.inl h.symm
    · exact Or.inr h

theorem length_dictErase_of_mem {α β : Type} [DecidableEq α] {d : Dict α β} {k : α}
    (hn : (keys d).Nodup) (h : k ∈ keys d) : (dictErase d k).length + 1 = d.length := by
  induction d with
  | nil => simp [keys] at h
  | cons kv rest ih =>
    rw [keys] at hn
    simp only [List.map_cons, List.nodup_cons] at hn
    by_cases hk : kv.1 = k
    · have hrest : k ∉ keys rest := fun hmem => hn.1 (hk ▸ hmem)
      rw [dictErase_cons_of_eq hk, dictErase_eq_self hrest]
      simp
    · have hrest : k ∈ keys rest := by
        rcases mem_keys_cons.1 h with h1 | h1
        · exact absurd h1 hk
        · exact h1
      rw [dictErase_cons_of_ne hk, List.length_cons, List.length_cons, ih hn.2 hrest]

theorem dictGet?_cons_of_eq {α β : Type} [DecidableEq α] {kv : α × β} {rest : Dict α β}
    {k : α} (hk : kv.1 = k) : dictGet? (kv :: rest) k = some kv.2 := by
  unfold dictGet?
  rw [List.find?_cons_of_pos _ (by simp [hk])]
  rfl

theorem dictGet?_cons_of_ne {α β : Type} [DecidableEq α] {kv : α × β} {rest : Dict α β}
    {k : α} (hk : kv.1 ≠ k) : dictGet? (kv :: rest) k = dictGet? rest k := by
  unfold dictGet?
  rw [List.find?_cons_of_neg _ (by simp [hk])]

theorem dictGet?_dictInsert_self {α β : Type} [DecidableEq α] (d : Dict α β) (k : α)
    (v : β) : dictGet? (dictInsert d k v) k = some v := by
  by_cases h : k ∈ keys d
  · unfold dictInsert
    rw [if_pos h]
    induction d with
    | nil => simp [keys] at h
    | cons kv rest ih =>
      by_cases hk : kv.1 = k
      · rw [List.map_cons, if_pos hk, dictGet?_cons_of_eq rfl]
      · have hrest : k ∈ keys rest := by
          rcases mem_keys_cons.1 h with h1 | h1
          · exact absurd h1 hk
          · exact h1
        rw [List.map_cons, if_neg hk, dictGet?_cons_of_ne hk]
        exact ih hrest
  · unfold dictInsert
    rw [if_neg h]
    induction d with
    | nil => exact dictGet?_cons_of_eq rfl
    | cons kv rest ih =>
      have hk : kv.1 ≠ k := fun hkk => h (mem_keys_cons.2 (Or.inl hkk))
      have hrest : k ∉ keys rest := fun hmem => h (mem_keys_cons.2 (Or.inr hmem))
      rw [List.cons_append, dictGet?_cons_of_ne hk]
      exact ih hrest

theorem computeLevels_fst_bounds (e d : ℚ) (n : ℕ) :
    ∀ p ∈ computeLevels e d n, 1 ≤ p.1 ∧ p.1 ≤ (n : ℤ) := by
  intro p hp
  unfold computeLevels at hp
  rcases List.mem_map.1 hp with ⟨i, hi, rfl⟩
  rw [List.mem_range] at hi
  dsimp only
  omega

theorem updateLevels_no_op (lv : Dict PyKey ℚ) (todo : List (ℤ × ℚ))
    (h : ∀ p ∈ todo, PyKey.pint p.1 ∈ keys lv ∨ PyKey.pint (-p.1) ∈ keys lv) :
    updateLevels lv todo = lv := by
  induction todo with
  | nil => rfl
  | cons hd tl ih =>
    obtain ⟨l, p⟩ := hd
    simp only [updateLevels]
    rw [if_neg]
    · exact ih fun q hq => h q (List.mem_cons_of_mem _ hq)
    · rcases h (l, p) (List.mem_cons_self _ _) with h1 | h1
      · exact fun hc => hc.1 h1
      · exact fun hc => hc.2 h1

theorem placeLoop_no_op (symbol : String) (todo : List (ℤ × ℚ)) (lv : Dict PyKey ℚ)
    (h : ∀ p ∈ todo, PyKey.pint p.1 ∉ keys lv) :
    placeLoop symbol todo lv = (lv, []) := by
  induction todo with
  | nil => rfl
  | cons hd tl ih =>
    obtain ⟨l, p⟩ := hd
    simp only [placeLoop]
    rw [if_neg (h (l, p) (List.mem_cons_self _ _))]
    exact ih fun q hq => h q (List.mem_cons_of_mem _ hq)

theorem placeLoop_flip (symbol : String) (todo : List (ℤ × ℚ)) :
    ∀ lv : Dict PyKey ℚ, LevelsInv lv → (∀ p ∈ todo, 1 ≤ p.1) →
    LevelsInv (placeLoop symbol todo lv).1 ∧
    (placeLoop symbol todo lv).1.length = lv.length ∧
    (∀ i : ℤ, 1 ≤ i → i ∈ todo.map Prod.fst →
      PyKey.pint i ∉ keys (placeLoop symbol todo lv).1 ∧
      ((PyKey.pint i ∈ keys lv ∨ PyKey.pint (-i) ∈ keys lv) →
        PyKey.pint (-i) ∈ keys (placeLoop symbol todo lv).1)) ∧
    (∀ j : ℤ, j ∉ todo.map Prod.fst → -j ∉ todo.map Prod.fst →
      (PyKey.pint j ∈ keys (placeLoop symbol todo lv).1 ↔ PyKey.pint j ∈ keys lv)) := by
  induction todo with
  | nil =>
    intro lv hinv _
    refine ⟨hinv, rfl, ?_, ?_⟩
    · intro i _ hi
      simp at hi
    · intro j _ _
      exact Iff.rfl
  | cons hd rest ih =>
    obtain ⟨l, p⟩ := hd
    intro lv hinv hpos
    have hl : 1 ≤ l := hpos (l, p) (List.mem_cons_self _ _)
    have hposr : ∀ q ∈ rest, 1 ≤ q.1 := fun q hq => hpos q (List.mem_cons_of_mem _ hq)
    have hnegr : ∀ i : ℤ, 1 ≤ i → -i ∉ rest.map Prod.fst := by
      intro i hi hc
      rcases List.mem_map.1 hc with ⟨q, hq, hq2⟩
      have := hposr q hq
      omega
    by_cases hmem : PyKey.pint l ∈ keys lv
    · -- the order is placed and the rung flipped from `l` to `-l`
      have hnotneg : PyKey.pint (-l) ∉ keys lv := fun hc => hinv.2.2 l ⟨hmem, hc⟩
      have hnostr : PyKey.pstr "-1" ∉ keys lv := by
        intro hc
        rcases hinv.2.1 _ hc with ⟨m, hm, _⟩
        exact absurd hm (by simp)
      have hpo : place_order symbol p l lv =
          (dictErase (dictInsert lv (PyKey.pint (-l)) p) (PyKey.pint l),
           some (Submission.limit symbol p)) := by
        unfold place_order
        rw [if_neg]
        rintro (hc | hc)
        · exact hnotneg hc
        · exact hnostr hc
      set lv1 := dictErase (dictInsert lv (PyKey.pint (-l)) p) (PyKey.pint l) with hlv1
      have hmem1 : ∀ x : PyKey,
          x ∈ keys lv1 ↔ x ≠ PyKey.pint l ∧ (x = PyKey.pint (-l) ∨ x ∈ keys lv) := by
        intro x
        rw [hlv1, mem_keys_dictErase, mem_keys_dictInsert]
      have hinv1 : LevelsInv lv1 := by
        refine ⟨nodup_keys_dictErase _ (nodup_keys_dictInsert _ _ hinv.1), ?_, ?_⟩
        · intro k hk
          rcases (hmem1 k).1 hk with ⟨_, hk2 | hk2⟩
          · exact ⟨-l, hk2, by omega⟩
          · exact hinv.2.1 k hk2
        · rintro i ⟨hi1, hi2⟩
          rcases (hmem1 _).1 hi1 with ⟨hne1, h1⟩
          rcases (hmem1 _).1 hi2 with ⟨hne2, h2⟩
          rcases h1 with h1 | h1
          · have hil : i = -l := by simpa using h1
            exact hne2 (by simp [hil])
          · rcases h2 with h2 | h2
            · have hil : i = l := by
                have : -i = -l := by simpa using h2
                omega
              exact hne1 (by simp [hil])
            · exact hinv.2.2 i ⟨h1, h2⟩
      have hlen1 : lv1.length = lv.length := by
        have ha : (dictInsert lv (PyKey.pint (-l)) p).length = lv.length + 1 :=
          length_dictInsert_of_not_mem _ hnotneg
        have hb : PyKey.pint l ∈ keys (dictInsert lv (PyKey.pint (-l)) p) :=
          (mem_keys_dictInsert _ _ _ _).2 (Or.inr hmem)
        have hc := length_dictErase_of_mem (nodup_keys_dictInsert _ _ hinv.1) hb
        rw [← hlv1] at hc
        omega
      have heq : placeLoop symbol ((l, p) :: rest) lv =
          ((placeLoop symbol rest lv1).1,
           Submission.limit symbol p :: (placeLoop symbol rest lv1).2) := by
        simp only [placeLoop]
        rw [if_pos hmem, hpo]
        rfl
      obtain ⟨ihinv, ihlen, ihproc, ihstay⟩ := ih lv1 hinv1 hposr
      rw [heq]
      dsimp only
      refine ⟨ihinv, by rw [ihlen, hlen1], ?_, ?_⟩
      · intro i hi himem
        rw [List.map_cons, List.mem_cons] at himem
        by_cases hirest : i ∈ rest.map Prod.fst
        · obtain ⟨hnot, himp⟩ := ihproc i hi hirest
          refine ⟨hnot, fun hor => himp ?_⟩
          by_cases hil : i = l
          · subst hil
            exact Or.inr ((hmem1 _).2 ⟨by simp; omega, Or.inl rfl⟩)
          · rcases hor with h1 | h1
            · exact Or.inl ((hmem1 _).2 ⟨by simp [hil], Or.inr h1⟩)
            · exact Or.inr ((hmem1 _).2 ⟨by simp; omega, Or.inr h1⟩)
        · have hil : i = l := by
            rcases himem with h1 | h1
            · exact h1
            · exact absurd h1 hirest
          subst hil
          have hni : -i ∉ rest.map Prod.fst := hnegr i hi
          constructor
          · intro hc
            exact ((hmem1 _).1 ((ihstay i hirest hni).1 hc)).1 rfl
          · intro _
            have h1 : PyKey.pint (-i) ∈ keys lv1 :=
              (hmem1 _).2 ⟨by simp; omega, Or.inl rfl⟩
            exact (ihstay (-i) hni (by simpa using hirest)).2 h1
      · intro j hj hnj
        rw [List.map_cons, List.mem_cons] at hj hnj
        have hjl : j ≠ l := fun hc => hj (Or.inl hc)
        have hjr : j ∉ rest.map Prod.fst := fun hc => hj (Or.inr hc)
        have hnjl : -j ≠ l := fun hc => hnj (Or.inl hc)
        have hnjr : -j ∉ rest.map Prod.fst := fun hc => hnj (Or.inr hc)
        rw [ihstay j hjr hnjr]
        constructor
        · intro h1
          rcases ((hmem1 _).1 h1).2 with h2 | h2
          · have : j = -l := by simpa using h2
            exact absurd (by omega : -j = l) hnjl
          · exact h2
        · intro h1
          exact (hmem1 _).2 ⟨by simp [hjl], Or.inr h1⟩
    · -- the rung is not Pending in the current dict: the loop body skips it
      have heq : placeLoop symbol ((l, p) :: rest) lv = placeLoop symbol rest lv := by
        simp only [placeLoop]
        rw [if_neg hmem]
      obtain ⟨ihinv, ihlen, ihproc, ihstay⟩ := ih lv hinv hposr
      rw [heq]
      refine ⟨ihinv, ihlen, ?_, ?_⟩
      · intro i hi himem
        rw [List.map_cons, List.mem_cons] at himem
        by_cases hirest : i ∈ rest.map Prod.fst
        · exact ihproc i hi hirest
        · have hil : i = l := by
            rcases himem with h1 | h1
            · exact h1
            · exact absurd h1 hirest
          subst hil
          have hni : -i ∉ rest.map Prod.fst := hnegr i hi
          constructor
          · intro hc
            exact hmem ((ihstay i hirest hni).1 hc)
          · rintro (h1 | h1)
            · exact absurd h1 hmem
            · exact (ihstay (-i) hni (by simpa using hirest)).2 h1
      · intro j hj hnj
        rw [List.map_cons, List.mem_cons] at hj hnj
        exact ihstay j (fun hc => hj (Or.inr hc)) (fun hc => hnj (Or.inr hc))

theorem mem_map_fst_computeLevels (e d : ℚ) (n : ℕ) (i : ℤ)
    (h1 : 1 ≤ i) (h2 : i ≤ (n : ℤ)) : i ∈ (computeLevels e d n).map Prod.fst := by
  unfold computeLevels
  rw [List.map_map]
  refine List.mem_map.2 ⟨(i - 1).toNat, ?_, ?_⟩
  · rw [List.mem_range]
    omega
  · show (((i - 1).toNat : ℤ) + 1) = i
    omega

theorem GoodLevels.exactlyOne {lv : Dict PyKey ℚ} (h : GoodLevels lv) :
    ∀ i : ℤ, 1 ≤ i → i ≤ (lv.length : ℤ) →
      (PyKey.pint i ∈ keys lv ↔ PyKey.pint (-i) ∉ keys lv) := by
  intro i h1 h2
  obtain ⟨j, hji, hjn⟩ : ∃ j : ℕ, (j : ℤ) + 1 = i ∧ j < lv.length :=
    ⟨(i - 1).toNat, by omega, by omega⟩
  have := h.2.2 j hjn
  rwa [hji] at this

theorem GoodLevels.toInv {lv : Dict PyKey ℚ} (h : GoodLevels lv) : LevelsInv lv := by
  refine ⟨h.1, ?_, ?_⟩
  · intro k hk
    have hg := h.2.1 k hk
    cases k with
    | pint m =>
      refine ⟨m, rfl, ?_⟩
      simp only [goodKey, decide_eq_true_eq] at hg
      omega
    | pstr s => simp [goodKey] at hg
  · rintro i ⟨hi1, hi2⟩
    have hg := h.2.1 _ hi1
    simp only [goodKey, decide_eq_true_eq] at hg
    rcases lt_trichotomy i 0 with hneg | hzero | hpos
    · have hx := h.exactlyOne (-i) (by omega) (by omega)
      exact (hx.1 hi2) (by simpa using hi1)
    · omega
    · have hx := h.exactlyOne i (by omega) (by omega)
      exact (hx.1 hi1) hi2

theorem GoodLevels.cover {lv : Dict PyKey ℚ} (h : GoodLevels lv) :
    ∀ i : ℤ, 1 ≤ i → i ≤ (lv.length : ℤ) →
      PyKey.pint i ∈ keys lv ∨ PyKey.pint (-i) ∈ keys lv := by
  intro i h1 h2
  by_cases hmem : PyKey.pint i ∈ keys lv
  · exact Or.inl hmem
  · right
    by_contra hc
    exact hmem ((h.exactlyOne i h1 h2).2 hc)

theorem trade_symbol_eq (b : Broker) (s : String) (eq : Equity) :
    trade_symbol b s eq =
      ({ eq with
          entry_price := get_max_entry_price b s
          levels := (placeLoop s
            (computeLevels (get_max_entry_price b s) eq.drawdown eq.levels.length)
            (updateLevels eq.levels
              (computeLevels (get_max_entry_price b s) eq.drawdown eq.levels.length))).1
          position := 1 },
       (if b.hasPosition s then [] else [Submission.market s]) ++
         (placeLoop s
           (computeLevels (get_max_entry_price b s) eq.drawdown eq.levels.length)
           (updateLevels eq.levels
             (computeLevels (get_max_entry_price b s) eq.drawdown eq.levels.length))).2) :=
  rfl

theorem trade_symbol_run (b : Broker) (s : String) (eq : Equity)
    (h : GoodLevels eq.levels) :
    (trade_symbol b s eq).1.levels.length = eq.levels.length ∧
    (∀ i : ℤ, 1 ≤ i → i ≤ (eq.levels.length : ℤ) →
      PyKey.pint i ∉ keys (trade_symbol b s eq).1.levels ∧
      PyKey.pint (-i) ∈ keys (trade_symbol b s eq).1.levels) ∧
    (trade_symbol b s eq).1.drawdown = eq.drawdown ∧
    (trade_symbol b s eq).1.status = eq.status ∧
    (trade_symbol b s eq).1.position = 1 ∧
    (trade_symbol b s eq).1.entry_price = get_max_entry_price b s := by
  have hup : updateLevels eq.levels
      (computeLevels (get_max_entry_price b s) eq.drawdown eq.levels.length) = eq.levels := by
    apply updateLevels_no_op
    intro p hp
    obtain ⟨h1, h2⟩ := computeLevels_fst_bounds _ _ _ p hp
    exact h.cover p.1 h1 h2
  obtain ⟨pinv, plen, pproc, pstay⟩ := placeLoop_flip s
    (computeLevels (get_max_entry_price b s) eq.drawdown eq.levels.length) eq.levels
    h.toInv (fun p hp => (computeLevels_fst_bounds _ _ _ p hp).1)
  rw [trade_symbol_eq, hup]
  dsimp only
  refine ⟨plen, ?_, rfl, rfl, rfl, rfl⟩
  intro i h1 h2
  have hmemtodo : i ∈ (computeLevels (get_max_entry_price b s) eq.drawdown
      eq.levels.length).map Prod.fst := mem_map_fst_computeLevels _ _ _ i h1 (by omega)
  obtain ⟨hnot, himp⟩ := pproc i h1 hmemtodo
  exact ⟨hnot, himp (h.cover i h1 h2)⟩

theorem trade_symbol_second (b : Broker) (s : String) (eq1 : Equity)
    (hall : ∀ i : ℤ, 1 ≤ i → i ≤ (eq1.levels.length : ℤ) →
      PyKey.pint i ∉ keys eq1.levels ∧ PyKey.pint (-i) ∈ keys eq1.levels)
    (hent : eq1.entry_price = get_max_entry_price b s)
    (hpos : eq1.position = 1) :
    trade_symbol b s eq1 =
      (eq1, if b.hasPosition s then [] else [Submission.market s]) := by
  have hup : updateLevels eq1.levels
      (computeLevels (get_max_entry_price b s) eq1.drawdown eq1.levels.length) =
      eq1.levels := by
    apply updateLevels_no_op
    intro p hp
    obtain ⟨h1, h2⟩ := computeLevels_fst_bounds _ _ _ p hp
    exact Or.inr (hall p.1 h1 h2).2
  have hpl : placeLoop s
      (computeLevels (get_max_entry_price b s) eq1.drawdown eq1.levels.length)
      eq1.levels = (eq1.levels, []) := by
    apply placeLoop_no_op
    intro p hp
    obtain ⟨h1, h2⟩ := computeLevels_fst_bounds _ _ _ p hp
    exact (hall p.1 h1 h2).1
  rw [trade_symbol_eq, hup, hpl]
  rcases eq1 with ⟨pos, ep, lv, dd, st⟩
  dsimp only at hent hpos ⊢
  rw [List.append_nil, hent, hpos]

theorem computeLevels_fst_pos (e d : ℚ) (n : ℕ) : ∀ p ∈ computeLevels e d n, 1 ≤ p.1 := by
  intro p hp
  unfold computeLevels at hp
  rcases List.mem_map.1 hp with ⟨i, _, rfl⟩
  dsimp only
  omega

theorem add_equity_of_valid {sIn lIn dIn : String} (eqs : Dict String Equity)
    (hv : validInputs sIn lIn dIn) :
    add_equity sIn lIn dIn eqs =
      AddResult.ok (dictInsert eqs (pyUpper sIn) (freshEquity lIn dIn)) := by
  rcases hv with ⟨h1, h2, h3⟩
  have h1b : (pyUpper sIn).isEmpty = false := by
    cases hse : (pyUpper sIn).isEmpty
    · rfl
    · exact absurd hse h1
  unfold add_equity
  rw [if_neg]
  simp only [h1b, Bool.false_or, Bool.or_eq_true, Bool.not_eq_true', not_or]
  exact ⟨by simpa using h2, by simpa using h3⟩

theorem add_equity_invalid_iff (sIn lIn dIn : String) :
    ((pyUpper sIn).isEmpty || !pyIsDigit lIn.toList ||
      !pyIsDigit (removeFirstDot dIn.toList)) = true ↔ ¬ validInputs sIn lIn dIn := by
  unfold validInputs
  cases hse : (pyUpper sIn).isEmpty <;>
    cases hld : pyIsDigit lIn.toList <;>
      cases hdd : pyIsDigit (removeFirstDot dIn.toList) <;>
        simp [hse, hld, hdd]

theorem rat_floor_eq_floor (y : ℚ) : Rat.floor y = ⌊y⌋ := by
  rw [Rat.floor_def', Rat.floor_def]

theorem roundHalfEven_eq (y : ℚ) : roundHalfEven y =
    if y - ⌊y⌋ < 1/2 then ⌊y⌋
    else if 1/2 < y - ⌊y⌋ then ⌊y⌋ + 1
    else if ⌊y⌋ % 2 = 0 then ⌊y⌋ else ⌊y⌋ + 1 := by
  simp only [roundHalfEven, rat_floor_eq_floor]

theorem roundHalfEven_ge_floor (y : ℚ) : ⌊y⌋ ≤ roundHalfEven y := by
  rw [roundHalfEven_eq]
  split_ifs <;> omega

theorem roundHalfEven_le_floor_add_one (y : ℚ) : roundHalfEven y ≤ ⌊y⌋ + 1 := by
  rw [roundHalfEven_eq]
  split_ifs <;> omega

theorem roundHalfEven_mono {y z : ℚ} (h : y ≤ z) :
    roundHalfEven y ≤ roundHalfEven z := by
  have hf : ⌊y⌋ ≤ ⌊z⌋ := Int.floor_mono h
  rcases lt_or_eq_of_le hf with hlt | heq
  · calc roundHalfEven y ≤ ⌊y⌋ + 1 := roundHalfEven_le_floor_add_one y
      _ ≤ ⌊z⌋ := by omega
      _ ≤ roundHalfEven z := roundHalfEven_ge_floor z
  · rw [roundHalfEven_eq, roundHalfEven_eq, ← heq]
    have hyz : y - (⌊y⌋ : ℚ) ≤ z - (⌊y⌋ : ℚ) := by linarith
    split_ifs <;> first | omega | linarith

theorem pyRound2_mono {x y : ℚ} (h : x ≤ y) : pyRound2 x ≤ pyRound2 y := by
  unfold pyRound2
  have h1 : roundHalfEven (x * 100) ≤ roundHalfEven (y * 100) :=
    roundHalfEven_mono (by linarith)
  have h2 : ((roundHalfEven (x * 100) : ℤ) : ℚ) ≤ ((roundHalfEven (y * 100) : ℤ) : ℚ) := by
    exact_mod_cast h1
  linarith

theorem computeLevels_length (e d : ℚ) (n : ℕ) : (computeLevels e d n).length = n := by
  unfold computeLevels
  rw [List.length_map, List.length_range]

theorem computeLevels_getElem? (e d : ℚ) (n i : ℕ) (h : i < n) :
    (computeLevels e d n)[i]? =
      some ((i : ℤ) + 1, pyRound2 (e * (1 - d * ((i : ℚ) + 1)))) := by
  unfold computeLevels
  rw [List.getElem?_map, List.getElem?_range h]
  rfl

theorem computeLevels_prices_antitone (e d : ℚ) (he : 0 < e) (hd : 0 < d) (n : ℕ) :
    List.Chain' (· ≥ ·) ((computeLevels e d n).map Prod.snd) := by
  unfold computeLevels
  rw [List.map_map, List.chain'_map]
  cases n with
  | zero => simp
  | succ m =>
    rw [List.chain'_range_succ]
    intro i _
    show pyRound2 (e * (1 - d * ((i : ℚ) + 1))) ≥
      pyRound2 (e * (1 - d * (((i : ℕ) + 1 : ℕ) + 1 : ℚ)))
    apply pyRound2_mono
    have hed : (0 : ℚ) < e * d := mul_pos he hd
    push_cast
    nlinarith

/-- C6 counterexample: with entryPrice 100, drawdown 1/100000 ∈ (0,1) and
count 2, both computed prices round to 100.00, so the price sequence is not
strictly descending even though all the claim's hypotheses hold. -/
theorem c6_counterexample_small_drawdown_not_strictly_descending :
    (0 : ℚ) < 100 ∧ (0 : ℚ) < 1/100000 ∧ (1/100000 : ℚ) < 1 ∧ (1 : ℕ) ≤ 2 ∧
    (computeLevels 100 (1/100000) 2).map Prod.snd = [100, 100] ∧
    ¬ List.Chain' (· > ·) ((computeLevels 100 (1/100000) 2).map Prod.snd) :=
  ⟨by norm_num, by norm_num, by norm_num, by norm_num, by decide, by
    have he : (computeLevels 100 (1/100000) 2).map Prod.snd = [100, 100] := by decide
    rw [he, List.chain'_cons]
    rintro ⟨h1, _⟩
    exact absurd h1 (by norm_num)⟩

/-- C6 amended: for every entryPrice > 0, drawdown ∈ (0,1) and count ≥ 1, the
ladder computation returns exactly count prices with price(i) equal to
entryPrice × (1 − drawdown × i) rounded to 2 decimal places under the code's
rounding (Python `round`: nearest, ties to even — not half-up), and the
resulting price sequence is non-increasing; it need not be strictly
descending, since consecutive exact prices can round to the same cent. -/
theorem c6_amended_ladder_formula_and_weak_descent (e d : ℚ) (n : ℕ)
    (he : 0 < e) (hd0 : 0 < d) (hd1 : d < 1) (hn : 1 ≤ n) :
    (computeLevels e d n).length = n ∧
    (∀ i : ℕ, i < n → (computeLevels e d n)[i]? =
      some ((i : ℤ) + 1, pyRound2 (e * (1 - d * ((i : ℚ) + 1))))) ∧
    List.Chain' (· ≥ ·) ((computeLevels e d n).map Prod.snd) :=
  ⟨computeLevels_length e d n, fun i hi => computeLevels_getElem? e d n i hi,
   computeLevels_prices_antitone e d he hd0 n⟩

/-- C6 amended, witness: the scenario ladder (100, 0.05, 3) satisfies the
amended statement. -/
theorem c6_amended_witness :
    (computeLevels 100 (1/20) 3).length = 3 ∧
    List.Chain' (· ≥ ·) ((computeLevels 100 (1/20) 3).map Prod.snd) :=
  ⟨(c6_amended_ladder_formula_and_weak_descent 100 (1/20) 3 (by norm_num)
      (by norm_num) (by norm_num) (by norm_num)).1,
   (c6_amended_ladder_formula_and_weak_descent 100 (1/20) 3 (by norm_num)
      (by norm_num) (by norm_num) (by norm_num)).2.2⟩

/-- C7: with entry price 100 (the fixed mock quote), drawdown 0.05 and count 3,
the computed ladder is exactly the mapping {1: 95.00, 2: 90.00, 3: 85.00}, both
as `computeLevels` and as stored by `add_equity` for inputs "3" and "5". -/
theorem c7_ladder_scenario_100_005_3 :
    computeLevels 100 (5/100) 3 = [(1, 95), (2, 90), (3, 85)] ∧
    add_equity "aapl" "3" "5" [] = AddResult.ok [("AAPL",
      { position := 0, entry_price := 100,
        levels := [(PyKey.pint 1, 95), (PyKey.pint 2, 90), (PyKey.pint 3, 85)],
        drawdown := 5/100, status := "Off" })] :=
  ⟨by decide, by decide⟩

/-- C3: refuted by the code — `trade_systems` executes `return` (not
`continue`) on the first instrument whose status is not `'On'`
(`src/bot.py:438-439`).  With an `'Off'` instrument listed before an active
one, the whole pass stops: the active instrument is not processed and nothing
at all is submitted, although the same active instrument processed on its own
completes its cycle and submits its ladder order. -/
theorem c3_inactive_instrument_aborts_whole_pass :
    eqOff.status ≠ "On" ∧ eqOn.status = "On" ∧
    trade_systems (brokerPos "BBB") [("AAA", eqOff), ("BBB", eqOn)] =
      ([("AAA", eqOff), ("BBB", eqOn)], []) ∧
    trade_systems (brokerPos "BBB") [("BBB", eqOn)] =
      ([("BBB", { position := 1, entry_price := 100,
                  levels := [(PyKey.pint (-1), 95)],
                  drawdown := 1/20, status := "On" })],
       [Submission.limit "BBB" 95]) :=
  ⟨by decide, by decide, by decide, by decide⟩

/-- C2: refuted by the code — after `load_equities`, all levels keys are
strings, so neither the `-level` check nor the update-loop membership tests
match them.  Loading a mid-ladder snapshot (rung 1 Pending as `"1"`, rung 2
Submitted as `"-2"`) and running one cycle submits limit orders for BOTH
rungs: the order at 90 re-submits rung 2, which the snapshot records as
already Submitted. -/
theorem c2_reload_resubmits_submitted_rung :
    load_equities savedMidLadder =
      [("AAPL", { position := 0, entry_price := 100,
                  levels := [(PyKey.pstr "1", 95), (PyKey.pstr "-2", 90)],
                  drawdown := 1/20, status := "On" })] ∧
    (trade_systems (brokerPos "AAPL") (load_equities savedMidLadder)).2 =
      [Submission.limit "AAPL" 95, Submission.limit "AAPL" 90] :=
  ⟨by decide, by decide⟩

/-- C4: refuted by the code — when `get_max_entry_price` still yields the
`-1` sentinel after the post-market-order wait, `trade_systems` does NOT
abort: it overwrites `entry_price` with `-1`, sets `position` to 1, flips
both rungs to Submitted and submits limit orders at the nonsensical negative
prices computed from the sentinel. -/
theorem c4_unknown_entry_price_cycle_not_aborted :
    get_max_entry_price brokerNoFills "A" = -1 ∧
    trade_symbol brokerNoFills "A" eqTwoPending =
      ({ position := 1, entry_price := -1,
         levels := [(PyKey.pint (-1), -19/20), (PyKey.pint (-2), -9/10)],
         drawdown := 1/20, status := "On" },
       [Submission.market "A", Submission.limit "A" (-19/20),
        Submission.limit "A" (-9/10)]) :=
  ⟨by decide, by decide⟩

/-- C5 counterexample: the broker already has an open order for `"A"` at
exactly 95 (so `check_existing_orders` returns true), yet the cycle submits a
second limit order at the same symbol and price — the open-order query is
never consulted before submission. -/
theorem c5_counterexample_duplicate_at_same_symbol_price :
    check_existing_orders brokerOpen95 "A" 95 = true ∧
    (trade_systems brokerOpen95 [("A", eqOn)]).2 = [Submission.limit "A" 95] :=
  ⟨by decide, by decide⟩

/-- C5 amended: `check_existing_orders` does implement the symbol+price match
against the broker's open-order list (true iff some open order for the symbol
has exactly that limit price), but the trading flow never invokes it: the
only pre-submission guard in `place_order` is the in-memory levels check —
an order is suppressed exactly when `-level` or the string `"-1"` is a key of
the levels dict, independent of broker-side open orders. -/
theorem c5_amended_presubmission_guard_is_in_memory_only :
    (∀ (b : Broker) (s : String) (p : ℚ),
      check_existing_orders b s p = true ↔ p ∈ b.openOrders s) ∧
    (∀ (s : String) (p : ℚ) (l : ℤ) (lv : Dict PyKey ℚ),
      (place_order s p l lv).2 = none ↔
        (PyKey.pint (-l) ∈ keys lv ∨ PyKey.pstr "-1" ∈ keys lv)) := by
  constructor
  · intro b s p
    unfold check_existing_orders
    rw [List.any_eq_true]
    constructor
    · rintro ⟨lp, hlp, hd⟩
      rw [decide_eq_true_eq] at hd
      exact hd ▸ hlp
    · intro hp
      exact ⟨p, hp, by simp⟩
  · intro s p l lv
    unfold place_order
    split
    · next h => simpa using h
    · next h => simpa using h

/-- C8 counterexample: `add_equity` accepts a rung count of 0 (`"0"` passes
`isdigit`) and creates a ledger entry with an empty ladder, and likewise
accepts a drawdown of 250 percent (fraction 5/2, far outside (0,1)) — neither
input is rejected, contradicting the claimed `InvalidParameter` rejection of
`count < 1` and out-of-range drawdown. -/
theorem c8_counterexample_no_range_validation :
    add_equity "AAPL" "0" "5" [] =
      AddResult.ok [("AAPL", { position := 0, entry_price := 100, levels := [],
                               drawdown := 1/20, status := "Off" })] ∧
    digitsToNat "0".toList = 0 ∧
    add_equity "MSFT" "2" "250" [] =
      AddResult.ok [("MSFT", freshEquity "2" "250")] ∧
    (freshEquity "2" "250").drawdown = 5/2 :=
  ⟨by decide, by decide, by decide, by decide⟩

/-- C8 amended: `add_equity` rejects exactly the inputs that fail its
string-shape validation — empty symbol, `levels` not a nonempty digit string,
or `drawdown` not a digit string after removing at most one decimal point —
and any input passing that validation creates (or overwrites) a ledger entry;
no range validation (`count ≥ 1`, `drawdown ∈ (0,1)`) is performed. -/
theorem c8_amended_string_shape_validation_only (sIn lIn dIn : String)
    (eqs : Dict String Equity) :
    (add_equity sIn lIn dIn eqs = AddResult.invalid ↔ ¬ validInputs sIn lIn dIn) ∧
    (validInputs sIn lIn dIn →
      add_equity sIn lIn dIn eqs =
        AddResult.ok (dictInsert eqs (pyUpper sIn) (freshEquity lIn dIn))) := by
  refine ⟨?_, fun hv => add_equity_of_valid eqs hv⟩
  simp only [add_equity]
  split
  · next hc => exact iff_of_true rfl ((add_equity_invalid_iff sIn lIn dIn).1 hc)
  · next hc =>
    refine iff_of_false (by simp) ?_
    intro hnv
    exact hc ((add_equity_invalid_iff sIn lIn dIn).2 hnv)

/-- C8 amended, witness: the inputs symbol "aapl", levels "0", drawdown "5"
pass the string validation and produce a stored entry. -/
theorem c8_amended_witness :
    validInputs "aapl" "0" "5" ∧
    add_equity "aapl" "0" "5" [] =
      AddResult.ok (dictInsert [] (pyUpper "aapl") (freshEquity "0" "5")) :=
  ⟨by decide, (c8_amended_string_shape_validation_only "aapl" "0" "5" []).2 (by decide)⟩

theorem dictCollapse_go {α β : Type} [DecidableEq α] (d : Dict α β) :
    ∀ acc : Dict α β, (∀ kv ∈ d, kv.1 ∉ keys acc) → (keys d).Nodup →
      d.foldl (fun a kv => dictInsert a kv.1 kv.2) acc = acc ++ d := by
  induction d with
  | nil =>
    intro acc _ _
    simp
  | cons kv rest ih =>
    intro acc hdisj hnd
    rw [keys, List.map_cons, List.nodup_cons] at hnd
    have hstep : dictInsert acc kv.1 kv.2 = acc ++ [kv] := by
      unfold dictInsert
      rw [if_neg (hdisj kv (List.mem_cons_self _ _))]
    rw [List.foldl_cons, hstep, ih (acc ++ [kv]) ?_ hnd.2, List.append_assoc,
      List.singleton_append]
    intro q hq
    rw [keys, List.map_append, List.mem_append]
    rintro (hc | hc)
    · exact hdisj q (List.mem_cons_of_mem _ hq) hc
    · rw [List.map_singleton, List.mem_singleton] at hc
      exact hnd.1 (hc ▸ List.mem_map_of_mem Prod.fst hq)

theorem dictCollapse_eq_self {α β : Type} [DecidableEq α] (d : Dict α β)
    (h : (keys d).Nodup) : dictCollapse d = d := by
  unfold dictCollapse
  rw [dictCollapse_go d [] (by intro kv _ hc; simp [keys] at hc) h,
    List.nil_append]

theorem saveEquity_loadEquity (p : PEquity) (h : (keys p.levels).Nodup) :
    saveEquity (loadEquity p) = p := by
  cases p with
  | mk pos ep lv dd st =>
    have hn : (keys lv).Nodup := h
    unfold saveEquity loadEquity
    dsimp only
    rw [dictCollapse_eq_self lv hn]
    simp only [PEquity.mk.injEq, List.map_map]
    refine ⟨trivial, trivial, ?_, trivial, trivial⟩
    have h2 : lv.map ((fun kv : PyKey × ℚ => (keyToString kv.1, kv.2)) ∘
        (fun kv : String × ℚ => (PyKey.pstr kv.1, kv.2))) = lv.map id :=
      List.map_congr_left fun x _ => rfl
    rw [h2, List.map_id]

theorem save_equities_load_equities (F : Dict String PEquity)
    (hsym : (keys F).Nodup) (hlv : ∀ e ∈ F, (keys e.2.levels).Nodup) :
    save_equities (load_equities F) = F := by
  unfold save_equities load_equities
  rw [dictCollapse_eq_self F hsym, List.map_map]
  have h : F.map ((fun kv : String × Equity => (kv.1, saveEquity kv.2)) ∘
      (fun kv : String × PEquity => (kv.1, loadEquity kv.2))) = F.map id := by
    apply List.map_congr_left
    intro kv hkv
    show (kv.1, saveEquity (loadEquity kv.2)) = kv
    rw [saveEquity_loadEquity kv.2 (hlv kv hkv)]
  rw [h, List.map_id]

/-- C9 amended: `save(load(save X))` produces exactly the persisted content of
`save X` for every snapshot `X` whose serialized form has no duplicate JSON
object key — distinct symbols and, per symbol, distinct stringified level
keys.  That hypothesis is needed: serialization coerces the int key `-2` and
the string key `"-2"` to the same JSON key, and `json.load` collapses the
duplicate last-wins, so re-saving loses an entry. -/
theorem c9_amended_save_load_save_stable (led : Ledger)
    (hsym : (keys (save_equities led)).Nodup)
    (hlv : ∀ e ∈ save_equities led, (keys e.2.levels).Nodup) :
    save_equities (load_equities (save_equities led)) = save_equities led :=
  save_equities_load_equities (save_equities led) hsym hlv

/-- C9 amended, witness: instantiated at the concrete one-symbol ledger with
an integer-keyed rung, whose serialized keys are distinct. -/
theorem c9_amended_witness :
    (keys (save_equities ledIntKey)).Nodup ∧
    save_equities (load_equities (save_equities ledIntKey)) = save_equities ledIntKey :=
  ⟨by decide, c9_amended_save_load_save_stable ledIntKey (by decide) (by decide)⟩

/-- C9 counterexample: the record does NOT round-trip losslessly through save
followed by load — the integer level key `1` is written as the JSON string
`"1"` and `load_equities` returns it as a string, so `load(save X) ≠ X`.  And
`save(load(save X)) = save X` also fails in general: `ledDupKey` (reachable
one cycle after a restart) holds both the string key `"-2"` and the int key
`-2`, which serialize to a duplicate JSON key; `json.load` keeps only the
last value, so the re-save has one fewer levels entry than the save. -/
theorem c9_counterexample_load_save_not_identity :
    load_equities (save_equities ledIntKey) ≠ ledIntKey ∧
    save_equities (load_equities (save_equities ledDupKey)) ≠
      save_equities ledDupKey ∧
    save_equities ledDupKey =
      [("A", ⟨1, 100, [("-2", 95), ("-2", 90)], 1/20, "On"⟩)] ∧
    save_equities (load_equities (save_equities ledDupKey)) =
      [("A", ⟨1, 100, [("-2", 90)], 1/20, "On"⟩)] :=
  ⟨by decide, by decide, by decide, by decide⟩

/-- C10: calling `add_equity` with a symbol already present silently replaces
that symbol's entire entry with a fresh one — position 0, the fixed mock
quote 100 as entry price, an all-Pending ladder (every key a positive integer
index), status "Off" — and the ledger does not grow; whatever Submitted rungs
or active status the old entry had are discarded. -/
theorem c10_add_equity_replaces_existing_entry (eqs : Dict String Equity)
    (sIn lIn dIn : String) (hv : validInputs sIn lIn dIn)
    (hm : pyUpper sIn ∈ keys eqs) :
    add_equity sIn lIn dIn eqs =
      AddResult.ok (dictInsert eqs (pyUpper sIn) (freshEquity lIn dIn)) ∧
    dictGet? (dictInsert eqs (pyUpper sIn) (freshEquity lIn dIn)) (pyUpper sIn) =
      some (freshEquity lIn dIn) ∧
    (dictInsert eqs (pyUpper sIn) (freshEquity lIn dIn)).length = eqs.length ∧
    (freshEquity lIn dIn).position = 0 ∧
    (freshEquity lIn dIn).entry_price = fetch_mock_api sIn ∧
    (freshEquity lIn dIn).status = "Off" ∧
    ∀ k ∈ keys (freshEquity lIn dIn).levels, ∃ i : ℤ, 1 ≤ i ∧ k = PyKey.pint i := by
  refine ⟨add_equity_of_valid eqs hv, dictGet?_dictInsert_self _ _ _,
    length_dictInsert_of_mem _ hm, rfl, rfl, rfl, ?_⟩
  intro k hk
  simp only [freshEquity, keys, List.map_map] at hk
  rcases List.mem_map.1 hk with ⟨lp, hlp, rfl⟩
  exact ⟨lp.1, computeLevels_fst_pos _ _ _ lp hlp, rfl⟩

/-- C10 witness: replacing the tracked symbol "AAPL" (held with position 3,
active status and a Submitted rung) by `add_equity "aapl" "2" "5"`. -/
theorem c10_witness :
    validInputs "aapl" "2" "5" ∧ pyUpper "aapl" ∈ keys eqsWithAAPL ∧
    add_equity "aapl" "2" "5" eqsWithAAPL =
      AddResult.ok (dictInsert eqsWithAAPL (pyUpper "aapl") (freshEquity "2" "5")) ∧
    dictGet? (dictInsert eqsWithAAPL (pyUpper "aapl") (freshEquity "2" "5"))
        (pyUpper "aapl") = some (freshEquity "2" "5") :=
  ⟨by decide, by decide,
   (c10_add_equity_replaces_existing_entry eqsWithAAPL "aapl" "2" "5"
     (by decide) (by decide)).1,
   (c10_add_equity_replaces_existing_entry eqsWithAAPL "aapl" "2" "5"
     (by decide) (by decide)).2.1⟩

/-- C1 counterexample: the idempotence claim quantifies over every ledger
state, but it fails on states whose levels dict carries post-restart string
keys.  Here rung 3 is recorded Submitted under the string key `"-3"` (and rung
1 under the in-session key `-1`): the first run grows the ladder and submits
rung 2, and the SECOND run submits a further limit order at 85 — a
Pending→Submitted transition for rung 3, which the ledger already records as
Submitted — with no broker-side state change between the runs. -/
theorem c1_counterexample_second_run_still_submits :
    PyKey.pstr "-3" ∈ keys eqMixedKeys.levels ∧
    (trade_systems (brokerPos "A") [("A", eqMixedKeys)]).2 =
      [Submission.limit "A" 90] ∧
    (trade_systems (brokerPos "A")
        (trade_systems (brokerPos "A") [("A", eqMixedKeys)]).1).2 =
      [Submission.limit "A" 85] :=
  ⟨by decide, by decide, by decide⟩

/-- C1 amended: restricted to ledgers whose levels dicts are well-formed
in-session ladders (`GoodLevels`: integer keys only, exactly one of `+i` /
`-i` per rung index `i ∈ 1..count`, no duplicates), running `trade_systems`
twice against an unchanged broker performs no limit-order submission at all
in the second run, and the second run leaves the ledger unchanged — so no
rung already Submitted undergoes a second Pending→Submitted transition and no
broker submit call is repeated for it.  (The initial market order of the
no-position branch is outside the rung ladder and recurs independently.)  On
ledgers with post-restart string-keyed rungs the property fails. -/
theorem c1_amended_second_run_no_limit_submissions (b : Broker) (led : Ledger)
    (h : ∀ e ∈ led, GoodLevels e.2.levels) :
    (trade_systems b (trade_systems b led).1).1 = (trade_systems b led).1 ∧
    (trade_systems b (trade_systems b led).1).2.all
      (fun u => !u.isLimit) = true := by
  induction led with
  | nil => exact ⟨rfl, rfl⟩
  | cons hd rest ih =>
    obtain ⟨s, eq⟩ := hd
    have hgood : GoodLevels eq.levels := h (s, eq) (List.mem_cons_self _ _)
    have hrest : ∀ e ∈ rest, GoodLevels e.2.levels :=
      fun e he => h e (List.mem_cons_of_mem _ he)
    obtain ⟨ih1, ih2⟩ := ih hrest
    by_cases hst : eq.status = "On"
    · have heq1 : trade_systems b ((s, eq) :: rest) =
          ((s, (trade_symbol b s eq).1) :: (trade_systems b rest).1,
           (trade_symbol b s eq).2 ++ (trade_systems b rest).2) := by
        simp only [trade_systems]
        rw [if_pos hst]
      obtain ⟨rlen, rall, rdd, rst, rpos, rent⟩ := trade_symbol_run b s eq hgood
      have hst1 : (trade_symbol b s eq).1.status = "On" := by
        rw [rst]
        exact hst
      have hsecond := trade_symbol_second b s (trade_symbol b s eq).1
        (by
          intro i h1 h2
          rw [rlen] at h2
          exact rall i h1 h2) rent rpos
      have heq2 : trade_systems b
          ((s, (trade_symbol b s eq).1) :: (trade_systems b rest).1) =
          ((s, (trade_symbol b s eq).1) ::
             (trade_systems b (trade_systems b rest).1).1,
           (if b.hasPosition s then [] else [Submission.market s]) ++
             (trade_systems b (trade_systems b rest).1).2) := by
        simp only [trade_systems]
        rw [if_pos hst1, hsecond]
      rw [heq1]
      dsimp only
      rw [heq2]
      constructor
      · dsimp only
        rw [ih1]
      · dsimp only
        rw [List.all_eq_true]
        intro u hu
        rw [List.mem_append] at hu
        rcases hu with hu | hu
        · by_cases hbp : b.hasPosition s
          · rw [if_pos hbp] at hu
            simp at hu
          · rw [if_neg hbp] at hu
            rw [List.mem_singleton] at hu
            subst hu
            rfl
        · rw [List.all_eq_true] at ih2
          exact ih2 u hu
    · have heq1 : trade_systems b ((s, eq) :: rest) = ((s, eq) :: rest, []) := by
        simp only [trade_systems]
        rw [if_neg hst]
      constructor
      · rw [heq1]
        dsimp only
        rw [heq1]
      · rw [heq1]
        dsimp only
        rw [heq1]
        rfl

/-- C1 amended, witness: a well-formed two-rung active instrument; the second
run leaves the ledger fixed and performs no limit submission. -/
theorem c1_amended_witness :
    GoodLevels eqTwoPending.levels ∧
    (trade_systems (brokerPos "A")
        (trade_systems (brokerPos "A") [("A", eqTwoPending)]).1).1 =
      (trade_systems (brokerPos "A") [("A", eqTwoPending)]).1 ∧
    (trade_systems (brokerPos "A")
        (trade_systems (brokerPos "A") [("A", eqTwoPending)]).1).2.all
      (fun u => !u.isLimit) = true :=
  ⟨by decide,
   (c1_amended_second_run_no_limit_submissions (brokerPos "A") [("A", eqTwoPending)]
     (by
       intro e he
       rw [List.mem_singleton] at he
       subst he
       decide)).1,
   (c1_amended_second_run_no_limit_submissions (brokerPos "A") [("A", eqTwoPending)]
     (by
       intro e he
       rw [List.mem_singleton] at he
       subst he
       decide)).2⟩

end Martingale
